import Mathlib

/-!
Verification development for the LR(0) canonical-collection builder
(`src/unnamed/part_000`, classes `GrammarSymbol`, `Production`, `Grammar`,
`LRItem`, `Closure`, and the global `LRItemsRegistry`).

The JavaScript source is shallowly embedded here:

* strings are `List Char`; the JS string primitives used by the source
  (`split` on a literal, `indexOf(..) !== -1`, `trim`, `split(/\s+/)`,
  join with a single space, `splice`) are modelled by the executable
  functions below;
* mutable objects and object identity are modelled by a heap:
  `BuildState` holds the list of all allocated `LRItem` objects, the list
  of all allocated `Closure` objects and the global `LRItemsRegistry`;
  an object reference is an index into those lists;
* a thrown JS exception is an `Except.error`: `BuildErr.typeError` is the
  TypeError raised by `undefined.trim()` in `Production._normalize`,
  `BuildErr.itemFinal` is the `Item ... is final` error of
  `LRItem.advance`;
* the recursive `Closure._build` / `LRItem.goto` construction is modelled
  with explicit fuel; `BuildErr.fuelOut` marks fuel exhaustion.  All
  recursions are structural, so every function evaluates by `decide`.
-/

/-- Whitespace test used to model the behaviour of JS `trim` and the
whitespace regex `/\s+/` on the characters appearing in grammars. -/
def isWS (c : Char) : Bool := c.isWhitespace

/-- Structural worker for `splitOnL`: the fuel is an upper bound on the
string length, so the recursion is structural and every concrete split
evaluates inside the kernel. -/
def splitOnAux (sep : List Char) : Nat → List Char → List (List Char)
  | _, [] => [[]]
  | 0, s => [s]
  | fuel + 1, c :: rest =>
    if sep ≠ [] ∧ List.isPrefixOf sep (c :: rest) then
      [] :: splitOnAux sep fuel ((c :: rest).drop sep.length)
    else
      match splitOnAux sep fuel rest with
      | [] => [[c]]
      | r :: rs => (c :: r) :: rs

/-- JS `String.prototype.split` with a non-empty literal separator:
cut the string at each leftmost non-overlapping occurrence of `sep`. -/
def splitOnL (sep s : List Char) : List (List Char) :=
  splitOnAux sep s.length s

/-- JS `s.indexOf(sub) !== -1`: does `sub` occur in `s`. -/
def hasSubL (sep : List Char) : List Char → Bool
  | [] => List.isPrefixOf sep []
  | c :: rest => List.isPrefixOf sep (c :: rest) || hasSubL sep rest

/-- JS `String.prototype.trim`: strip whitespace from both ends. -/
def trimL (s : List Char) : List Char :=
  ((s.dropWhile isWS).reverse.dropWhile isWS).reverse

/-- JS `s.split(/\s+/)` on a trimmed string: maximal runs of whitespace
separate the tokens, so the result is the list of whitespace-free words
(on a trimmed string the regex split produces no empty tokens). -/
def wordsL (s : List Char) : List (List Char) :=
  (s.splitOnP (fun c => isWS c)).filter (fun t => ¬ t.isEmpty)

/-- JS `Array.prototype.splice(n, 0, x)`: insert `x` at index `n`
(appending when `n` exceeds the length, as `splice` does). -/
def insertAtL (n : Nat) (x : α) (l : List α) : List α :=
  l.take n ++ [x] ++ l.drop n

/-- JS array join with a single-space separator. -/
def joinSp : List (List Char) → List Char
  | [] => []
  | [x] => x
  | x :: y :: rest => x ++ ' ' :: joinSp (y :: rest)

/-- Errors surfaced by the embedded code: the JS TypeError thrown by
`Production._normalize` on a missing splitter, the `Item ... is final`
error of `LRItem.advance`, and fuel exhaustion of the embedding. -/
inductive BuildErr where
  | typeError
  | itemFinal
  | fuelOut
deriving DecidableEq

/-- Equality of embedded results is decidable, so every concrete run of
the embedded code can be checked by `decide`. -/
instance {ε α : Type} [DecidableEq ε] [DecidableEq α] :
    DecidableEq (Except ε α) := fun x y =>
  match x, y with
  | .ok a, .ok b =>
    if h : a = b then .isTrue (congrArg _ h)
    else .isFalse (fun hh => h (Except.ok.inj hh))
  | .error a, .error b =>
    if h : a = b then .isTrue (congrArg _ h)
    else .isFalse (fun hh => h (Except.error.inj hh))
  | .ok _, .error _ => .isFalse (fun hh => Except.noConfusion hh)
  | .error _, .ok _ => .isFalse (fun hh => Except.noConfusion hh)

/-- Der Nichts. The Epsilon constant of the module. -/
def EPSILON : List Char := "ε".data

/-- Class `GrammarSymbol`: wraps one grammar symbol. -/
structure GrammarSymbol where
  symbol : List Char
deriving DecidableEq, Inhabited

/-- The quote regex of `isTerminal` applied to a one-character string:
is the character a single or double quote. -/
def isQuote (c : Char) : Bool := c = '\x27' || c = '"'

/-- `GrammarSymbol.isTerminal`: the first and the last character are
quotes.  On the empty symbol JS reads `undefined` on both sides and the
regex test fails, hence `false`. -/
def GrammarSymbol.isTerminal (s : GrammarSymbol) : Bool :=
  match s.symbol with
  | [] => false
  | c :: cs => isQuote c && isQuote ((c :: cs).getLastD c)

/-- `GrammarSymbol.isNonTerminal`. -/
def GrammarSymbol.isNonTerminal (s : GrammarSymbol) : Bool := !s.isTerminal

/-- `GrammarSymbol.isEpsilon`. -/
def GrammarSymbol.isEpsilon (s : GrammarSymbol) : Bool := s.symbol = EPSILON

/-- `GrammarSymbol.isSymbol`: compare the wrapped text with a raw string. -/
def GrammarSymbol.isSymbol (s : GrammarSymbol) (sym : List Char) : Bool :=
  s.symbol = sym

/-- Class `Production`: one grammar rule, with the raw text it came from. -/
structure Production where
  raw : List Char
  LHS : GrammarSymbol
  RHS : List GrammarSymbol
deriving DecidableEq, Inhabited

/-- `Production.setLHS` (grammar back-fills the LHS of `| ...` lines). -/
def Production.setLHS (p : Production) (lhs : List Char) : Production :=
  { p with LHS := ⟨lhs⟩ }

/-- The token-coalescing loop of `Production._normalize`: two adjacent
bare-quote tokens come from a quoted space and merge into `" "`. -/
def coalesceTokens : List (List Char) → List (List Char)
  | t₁ :: t₂ :: rest =>
    if t₁ = "\"".data ∧ t₂ = "\"".data then ("\" \"".data) :: coalesceTokens rest
    else t₁ :: coalesceTokens (t₂ :: rest)
  | l => l

/-- Constructor plus `Production._normalize`: pick `->` as splitter when
present, else `|`; trim the two sides; an empty RHS becomes `[ε]`,
otherwise the RHS is tokenized on whitespace with quote coalescing.
When the line has neither splitter, `splitted[1]` is `undefined` and JS
throws a TypeError from `undefined.trim()`, modelled as `.typeError`. -/
def Production.normalize (raw : List Char) : Except BuildErr Production :=
  let splitter := if hasSubL ("->".data) raw then ("->".data) else ("|".data)
  let splitted := splitOnL splitter raw
  let lhs : GrammarSymbol := ⟨trimL (splitted.headD [])⟩
  match splitted[1]? with
  | none => .error .typeError
  | some second =>
    let rhsStr := trimL second
    let RHS :=
      if rhsStr.isEmpty then [(⟨EPSILON⟩ : GrammarSymbol)]
      else (coalesceTokens (wordsL rhsStr)).map GrammarSymbol.mk
    .ok ⟨raw, lhs, RHS⟩

/-- Class `Grammar`: the normalized productions keyed by their number
(`0` holds the augmented production), the augmented production itself
(`_isAugmentedProduction`) and the start symbol (`_startSymbol`). -/
structure Grammar where
  bnf : List (Nat × Production)
  isAugmentedProduction : Option Production
  startSymbol : Option (List Char)
deriving DecidableEq, Inhabited

/-- `Grammar.getProductionsForSymbol`: the linear scan of `_bnf` keeping
the productions whose LHS equals the queried symbol, key mapping
preserved. -/
def Grammar.getProductionsForSymbol (g : Grammar) (sym : List Char) :
    List (Nat × Production) :=
  g.bnf.filter (fun kp => kp.2.LHS.isSymbol sym)

/-- Worker for `Grammar._normalizeBnf`: `k` is the forEach index,
`current` the running `currentNonTerminal` (JS starts it `undefined`,
which stringifies to `"undefined"`; grammars whose first line is a
continuation are the only ones that can observe it). -/
def Grammar.normalizeBnfAux (k : Nat) (current : List Char)
    (acc : List (Nat × Production)) (start : Option (List Char))
    (aug : Option Production) :
    List (List Char) → Except BuildErr Grammar
  | [] => .ok ⟨acc, aug, start⟩
  | raw :: rest =>
    match Production.normalize raw with
    | .error e => .error e
    | .ok p₀ =>
      let p := if p₀.LHS.symbol = [] then p₀.setLHS current else p₀
      let current' := p.LHS.symbol
      if k = 0 then
        let S := current'
        match Production.normalize (S ++ "\x27 -> ".data ++ S) with
        | .error e => .error e
        | .ok augP =>
          Grammar.normalizeBnfAux (k + 1) current'
            (acc ++ [(0, augP), (k + 1, p)]) (some S) (some augP) rest
      else
        Grammar.normalizeBnfAux (k + 1) current' (acc ++ [(k + 1, p)])
          start aug rest

/-- `Grammar` constructor on an array of raw production lines. -/
def Grammar.ofLines (raws : List (List Char)) : Except BuildErr Grammar :=
  Grammar.normalizeBnfAux 0 ("undefined".data) [] none none raws

/-- `Grammar._toArray` on a string grammar: split on newlines and drop
blank lines. -/
def Grammar.toArrayLines (s : List Char) : List (List Char) :=
  (splitOnL ("\n".data) s).filter (fun l => ¬ (trimL l).isEmpty)

/-- `Grammar` constructor on a newline-delimited block. -/
def Grammar.ofText (s : List Char) : Except BuildErr Grammar :=
  Grammar.ofLines (Grammar.toArrayLines s)

/-- Class `LRItem`: a production with a dot cursor, the owning grammar,
and the two lazily assigned references `_closure` and `_gotoPointer`
(object references are indices into the `BuildState` heaps). -/
structure LRItem where
  production : Production
  dotPosition : Nat
  grammar : Grammar
  closure : Option Nat
  gotoPointer : Option Nat
deriving DecidableEq, Inhabited

/-- Class `Closure`: kernel item, the ordered item set, the cursor
`_currentItem` used by `_build`, and the owning grammar. -/
structure Closure where
  kernelItem : Nat
  items : List Nat
  currentItem : Nat
  grammar : Grammar
deriving DecidableEq, Inhabited

/-- The whole mutable world of one construction session: every `LRItem`
object ever allocated, every `Closure` object ever allocated, and the
global `LRItemsRegistry` mapping serialized keys to item references. -/
structure BuildState where
  items : List LRItem
  closures : List Closure
  registry : List (List Char × Nat)
deriving DecidableEq, Inhabited

/-- Dereference an item pointer. -/
def getItem (st : BuildState) (i : Nat) : LRItem := st.items.getD i default

/-- Dereference a closure pointer. -/
def getClosure (st : BuildState) (c : Nat) : Closure :=
  st.closures.getD c default

/-- Mutate the item object behind pointer `i` in place. -/
def modifyItem (st : BuildState) (i : Nat) (f : LRItem → LRItem) :
    BuildState :=
  { st with items := st.items.set i (f (getItem st i)) }

/-- Mutate the closure object behind pointer `c` in place. -/
def modifyClosure (st : BuildState) (c : Nat) (f : Closure → Closure) :
    BuildState :=
  { st with closures := st.closures.set c (f (getClosure st c)) }

/-- First-match lookup in the registry association list (JS object keys
are unique, and the code never overwrites an existing key). -/
def assocLookup : List (List Char × Nat) → List Char → Option Nat
  | [], _ => none
  | kv :: rest, key => if kv.1 = key then some kv.2 else assocLookup rest key

/-- Registry lookup by serialized key. -/
def lookupReg (st : BuildState) (key : List Char) : Option Nat :=
  assocLookup st.registry key

/-- Allocate a fresh `LRItem` object (JS `new LRItem(...)`); the returned
pointer is the next free index of the item heap. -/
def allocItem (st : BuildState) (it : LRItem) : BuildState × Nat :=
  ({ st with items := st.items ++ [it] }, st.items.length)

/-- `LRItem.isFinal`: the dot has reached the end of the RHS. -/
def LRItem.isFinal (it : LRItem) : Bool :=
  it.dotPosition == it.production.RHS.length

/-- `LRItem.getCurrentSymbol`: the symbol at the dot position (callers
guard with `isFinal`, so the out-of-range default is never observed). -/
def LRItem.getCurrentSymbol (it : LRItem) : GrammarSymbol :=
  it.production.RHS.getD it.dotPosition default

/-- `LRItem.shouldClosure`: not final and a non-terminal at the dot. -/
def LRItem.shouldClosure (it : LRItem) : Bool :=
  !it.isFinal && it.getCurrentSymbol.isNonTerminal

/-- `LRItem.isConnected`: a goto target has been cached. -/
def LRItem.isConnected (it : LRItem) : Bool := it.gotoPointer.isSome

/-- `LRItem.keyForItem`: LHS, arrow, and the RHS symbols with the dot
marker spliced in at the dot position, joined by single spaces. -/
def keyForItem (p : Production) (dotPosition : Nat) : List Char :=
  p.LHS.symbol ++ " -> ".data ++
    joinSp (insertAtL dotPosition ("•".data) (p.RHS.map (fun s => s.symbol)))

/-- `LRItem.serialize`. -/
def LRItem.serialize (it : LRItem) : List Char :=
  keyForItem it.production it.dotPosition

/-- `LRItem.advance`: throw `Item ... is final` on a final item, else a
fresh unregistered item with the dot moved one step right, over the same
production and grammar. -/
def advanceE (it : LRItem) : Except BuildErr LRItem :=
  if it.isFinal then .error .itemFinal
  else .ok ⟨it.production, it.dotPosition + 1, it.grammar, none, none⟩

/-- The registry interaction of `Closure._build`: reuse the registered
dot-0 item for the production, or allocate and register a fresh one. -/
def registerOrReuse (st : BuildState) (p : Production) (g : Grammar) :
    BuildState × Nat :=
  let key := keyForItem p 0
  match lookupReg st key with
  | some i => (st, i)
  | none =>
    let (st₁, j) := allocItem st ⟨p, 0, g, none, none⟩
    ({ st₁ with registry := st₁.registry ++ [(key, j)] }, j)

/-- The `for (let k in productionsForSymbol)` loop body of
`Closure._build`: register or reuse the dot-0 item, append it to the
closure, move the `_currentItem` cursor onto it, recursively build
(through `bu`), then continue with the remaining productions. -/
def buildLoopF (bu : BuildState → Except BuildErr BuildState) (cid : Nat) :
    List (Nat × Production) → BuildState → Except BuildErr BuildState
  | [], st => .ok st
  | kp :: rest, st =>
    let cl := getClosure st cid
    let ri := registerOrReuse st kp.2 cl.grammar
    let st₂ := modifyClosure ri.1 cid
      (fun c => { c with items := c.items ++ [ri.2], currentItem := ri.2 })
    match bu st₂ with
    | .error e => .error e
    | .ok st₃ => buildLoopF bu cid rest st₃

/-- `Closure._build` on the closure behind pointer `cid`: stop when the
`_currentItem` is not closurable, otherwise run the expansion loop over
the productions for the symbol at its dot. -/
def buildStep : Nat → Nat → BuildState → Except BuildErr BuildState
  | 0, _, _ => .error .fuelOut
  | fuel + 1, cid, st =>
    let cl := getClosure st cid
    let cur := getItem st cl.currentItem
    if cur.shouldClosure then
      buildLoopF (buildStep fuel cid) cid
        (cl.grammar.getProductionsForSymbol cur.getCurrentSymbol.symbol) st
    else .ok st

/-- `LRItem.closure()` on the item behind pointer `i`: a no-op returning
nothing when the item is not closurable; otherwise allocate a `Closure`
whose kernel is this item, run `_build`, store the result in `_closure`
and return it. -/
def closureOp (fuel : Nat) (i : Nat) (st : BuildState) :
    Except BuildErr (BuildState × Option Nat) :=
  let it := getItem st i
  if it.shouldClosure then
    let c := st.closures.length
    let st₁ := { st with closures := st.closures ++ [⟨i, [i], i, it.grammar⟩] }
    match buildStep fuel c st₁ with
    | .error e => .error e
    | .ok st₂ =>
      let st₃ := modifyItem st₂ i (fun x => { x with closure := some c })
      .ok (st₃, (getItem st₃ i).closure)
  else .ok (st, none)

/-- The `forEach` of `Closure.goto()`: run goto on each listed item. -/
def gotoListF
    (go : Nat → BuildState → Except BuildErr (BuildState × Option Nat)) :
    List Nat → BuildState → Except BuildErr BuildState
  | [], st => .ok st
  | i :: rest, st =>
    match go i st with
    | .error e => .error e
    | .ok (st₁, _) => gotoListF go rest st₁

/-- `Closure.goto()` on the closure behind pointer `c`. -/
def closureGotoF
    (go : Nat → BuildState → Except BuildErr (BuildState × Option Nat))
    (c : Nat) (st : BuildState) : Except BuildErr BuildState :=
  gotoListF go (getClosure st c).items st

/-- `LRItem.goto()` on the item behind pointer `i`: on a non-final,
not-yet-connected item, advance the dot, allocate the goto `Closure`
around the advanced kernel, run `_build`, cache the closure in
`_gotoPointer`, recursively goto the new closure, and return the cached
pointer; otherwise return the (possibly null) cached pointer. -/
def gotoItem : Nat → Nat → BuildState → Except BuildErr (BuildState × Option Nat)
  | 0, _, _ => .error .fuelOut
  | fuel + 1, i, st =>
    let it := getItem st i
    if !it.isFinal && !it.isConnected then
      match advanceE it with
      | .error e => .error e
      | .ok adv =>
        let ai := allocItem st adv
        let c := ai.1.closures.length
        let st₂ :=
          { ai.1 with closures := ai.1.closures ++ [⟨ai.2, [ai.2], ai.2, it.grammar⟩] }
        match buildStep fuel c st₂ with
        | .error e => .error e
        | .ok st₃ =>
          let st₄ := modifyItem st₃ i (fun x => { x with gotoPointer := some c })
          match closureGotoF (gotoItem fuel) c st₄ with
          | .error e => .error e
          | .ok st₅ => .ok (st₅, (getItem st₅ i).gotoPointer)
    else .ok (st, it.gotoPointer)

/-- `Closure.goto()` with its own fuel. -/
def closureGoto (fuel : Nat) (c : Nat) (st : BuildState) :
    Except BuildErr BuildState :=
  closureGotoF (gotoItem fuel) c st

/-- The whole-graph entry point `kernelItem.closure().goto()`: when
`closure()` returns nothing the chained `.goto()` is a JS TypeError. -/
def construct (fuel : Nat) (i : Nat) (st : BuildState) :
    Except BuildErr BuildState :=
  match closureOp fuel i st with
  | .error e => .error e
  | .ok (st₁, some c) => closureGoto fuel c st₁
  | .ok (_, none) => .error .typeError

/-- Field-wise evolution of one item object over time: the immutable
fields (production, dot, grammar) never change, and the lazily assigned
references (`_closure`, `_gotoPointer`), once set, keep their value. -/
def itemLE (a b : LRItem) : Prop :=
  b.production = a.production ∧ b.dotPosition = a.dotPosition ∧
  b.grammar = a.grammar ∧
  (∀ c, a.gotoPointer = some c → b.gotoPointer = some c) ∧
  (∀ c, a.closure = some c → b.closure = some c)

/-- Monotone evolution of the whole heap across a goto recursion: heaps
only grow, existing items evolve by `itemLE`, registry entries persist,
and previously existing closure objects are untouched. -/
def GMono (st st' : BuildState) : Prop :=
  st.items.length ≤ st'.items.length ∧
  st.closures.length ≤ st'.closures.length ∧
  (∀ k, k < st.items.length → itemLE (getItem st k) (getItem st' k)) ∧
  (∀ key v, lookupReg st key = some v → lookupReg st' key = some v) ∧
  (∀ d, d < st.closures.length → getClosure st' d = getClosure st d)

/-- Effect of `Closure._build` on closure `cid`: item heap and registry
are extended (never rewritten), no closure is allocated, and only the
closure being built is mutated. -/
def BMono (cid : Nat) (st st' : BuildState) : Prop :=
  (∃ ex, st'.items = st.items ++ ex) ∧
  (∃ ex, st'.registry = st.registry ++ ex) ∧
  st'.closures.length = st.closures.length ∧
  (∀ d, d ≠ cid → getClosure st' d = getClosure st d)

/-- Contract of one successful `LRItem.goto()` call on item `i`: the heap
evolves monotonically, the returned pointer is exactly the `_gotoPointer`
field after the call, and a null return means the item was final and the
state is untouched. -/
def GotoOk (i : Nat) (st st' : BuildState) (r : Option Nat) : Prop :=
  GMono st st' ∧ r = (getItem st' i).gotoPointer ∧
  (r = none → (getItem st' i).isFinal = true ∧ st' = st)

/-- The state produced by `LRItem.closure()` on item `i` when the
expansion adds nothing: one new closure holding only the kernel, and the
`_closure` field of the kernel set to it. -/
def epsClosureResult (st : BuildState) (i : Nat) : BuildState :=
  modifyItem
    { st with closures := st.closures ++ [⟨i, [i], i, (getItem st i).grammar⟩] }
    i (fun x => { x with closure := some st.closures.length })

/-- The example grammar of the module self-test. -/
def exLines : List (List Char) :=
  ["S -> A A".data, "A -> \"a\" A".data, "   | \"b\"".data]

/-- The normalized example grammar. -/
def exG : Grammar :=
  match Grammar.ofLines exLines with
  | .ok g => g
  | .error _ => default

/-- The augmented production of the example grammar. -/
def exAug : Production :=
  match exG.isAugmentedProduction with
  | some p => p
  | none => default

/-- Production 3 of the example grammar, the continuation line. -/
def pAb : Production :=
  match Production.normalize ("   | \"b\"".data) with
  | .ok p => (p.setLHS ("A".data))
  | .error _ => default

/-- One-item state used to exercise `LRItem.goto()` concretely. -/
def gotoWSt : BuildState := ⟨[⟨pAb, 0, exG, none, none⟩], [], []⟩

/-- The state after `goto()` on the single item of `gotoWSt`: the
advanced final kernel was allocated, its singleton closure was built,
and the source item was connected to it. -/
def gotoWSt₁ : BuildState :=
  ⟨[⟨pAb, 0, exG, none, some 0⟩, ⟨pAb, 1, exG, none, none⟩],
   [⟨1, [1], 1, exG⟩], []⟩

/-- A state whose registry already holds the dot-0 item of `pAb`. -/
def regWSt : BuildState :=
  (registerOrReuse ⟨[], [], []⟩ pAb exG).1

/-- The epsilon grammar of the spec example. -/
def epsLines : List (List Char) := ["F -> ε".data]

/-- The normalized epsilon grammar. -/
def epsG : Grammar :=
  match Grammar.ofLines epsLines with
  | .ok g => g
  | .error _ => default

/-- The production `F -> ε`. -/
def pFe : Production :=
  match Production.normalize ("F -> ε".data) with
  | .ok p => p
  | .error _ => default

/-- One-item state whose kernel has the dot before `ε`. -/
def epsSt : BuildState := ⟨[⟨pFe, 0, epsG, none, none⟩], [], []⟩

/-- The left-recursive one-production grammar `S -> S`. -/
def lrLines : List (List Char) := ["S -> S".data]

/-- The normalized left-recursive grammar. -/
def lrG : Grammar :=
  match Grammar.ofLines lrLines with
  | .ok g => g
  | .error _ => default

/-- Production 1 (`S -> S`) of the left-recursive grammar. -/
def lrP1 : Production :=
  match Production.normalize ("S -> S".data) with
  | .ok p => p
  | .error _ => default

/-- The registry-shared dot-0 item over `S -> S`. -/
def lrItem1 : LRItem := ⟨lrP1, 0, lrG, none, none⟩

/-- The serialized key of the dot-0 item over `S -> S`. -/
def lrKey : List Char := keyForItem lrP1 0

/-- The augmented production of the left-recursive grammar. -/
def lrAug : Production :=
  match lrG.isAugmentedProduction with
  | some p => p
  | none => default

/-- The root kernel item over the augmented production of the
left-recursive grammar. -/
def lrRoot : LRItem := ⟨lrAug, 0, lrG, none, none⟩

/-- The root state for the left-recursive grammar: the kernel item over
the augmented production at dot 0. -/
def lrSt : BuildState := ⟨[lrRoot], [], []⟩

/-- The state right after `closure()` on the root item allocates the
root closure. -/
def lrSt₁ : BuildState := ⟨[lrRoot], [⟨0, [0], 0, lrG⟩], []⟩

/-- The state reached after `closure()` allocates the root closure and
its `_build` performs the first (and only novel) registration of the
item `S -> • S`: from here on the expansion loops. -/
def lrSt₃ : BuildState :=
  ⟨[lrRoot, lrItem1], [⟨0, [0, 1], 1, lrG⟩], [(lrKey, 1)]⟩

/-- The looping configurations of `Closure._build` on the left-recursive
grammar: closure 0 exists, its cursor sits on the registry-shared item
`S -> • S`, and the registry resolves that item to pointer 1. -/
abbrev LrLoop (st : BuildState) : Prop :=
  lookupReg st lrKey = some 1 ∧
  getItem st 1 = lrItem1 ∧
  (getClosure st 0).currentItem = 1 ∧
  (getClosure st 0).grammar = lrG ∧
  0 < st.closures.length

/-! ### Heap access lemmas -/

/-- Reading below the old length is unaffected by an append. -/
theorem getD_append_lt {α : Type} (l ex : List α) (n : Nat) (d : α)
    (h : n < l.length) : (l ++ ex).getD n d = l.getD n d :=
  List.getD_append l ex d n h

/-- Reading the first appended cell. -/
theorem getD_append_len {α : Type} (l : List α) (x : α) (d : α) :
    (l ++ [x]).getD l.length d = x := by
  rw [List.getD_append_right l [x] d l.length (Nat.le_refl _)]
  simp

/-- Reading the updated cell after `set`. -/
theorem getD_set_self {α : Type} (l : List α) (n : Nat) (a d : α)
    (h : n < l.length) : (l.set n a).getD n d = a := by
  induction l generalizing n with
  | nil => simp at h
  | cons x xs ih =>
    cases n with
    | zero => rfl
    | succ m =>
      simp only [List.set_cons_succ, List.getD_cons_succ]
      exact ih m (by simpa using h)

/-- Reading any other cell after `set`. -/
theorem getD_set_ne {α : Type} (l : List α) (m n : Nat) (a d : α)
    (h : m ≠ n) : (l.set m a).getD n d = l.getD n d := by
  induction l generalizing m n with
  | nil => simp
  | cons x xs ih =>
    cases m with
    | zero =>
      cases n with
      | zero => exact absurd rfl h
      | succ k => rfl
    | succ j =>
      cases n with
      | zero => rfl
      | succ k =>
        simp only [List.set_cons_succ, List.getD_cons_succ]
        exact ih j k (fun hh => h (by rw [hh]))

/-- Association lookups survive appending new entries on the right. -/
theorem assocLookup_append {l ex : List (List Char × Nat)} {key : List Char}
    {v : Nat} (h : assocLookup l key = some v) :
    assocLookup (l ++ ex) key = some v := by
  induction l with
  | nil => simp [assocLookup] at h
  | cons kv rest ih =>
    rw [List.cons_append]
    by_cases hk : kv.1 = key
    · rw [assocLookup, if_pos hk] at h ⊢
      exact h
    · rw [assocLookup, if_neg hk] at h ⊢
      exact ih h

/-! ### Monotonicity framework -/

/-- Item evolution is reflexive. -/
theorem itemLE_refl (a : LRItem) : itemLE a a :=
  ⟨rfl, rfl, rfl, fun _ h => h, fun _ h => h⟩

/-- Item evolution from an equality. -/
theorem itemLE_of_eq {a b : LRItem} (h : b = a) : itemLE a b := by
  subst h; exact itemLE_refl _

/-- Item evolution is transitive. -/
theorem itemLE_trans {a b c : LRItem} (h₁ : itemLE a b) (h₂ : itemLE b c) :
    itemLE a c :=
  ⟨h₂.1.trans h₁.1, h₂.2.1.trans h₁.2.1, h₂.2.2.1.trans h₁.2.2.1,
   fun x hx => h₂.2.2.2.1 x (h₁.2.2.2.1 x hx),
   fun x hx => h₂.2.2.2.2 x (h₁.2.2.2.2 x hx)⟩

/-- Heap monotonicity is reflexive. -/
theorem GMono_refl (st : BuildState) : GMono st st :=
  ⟨Nat.le_refl _, Nat.le_refl _, fun _ _ => itemLE_refl _, fun _ _ h => h,
   fun _ _ => rfl⟩

/-- Heap monotonicity is transitive. -/
theorem GMono_trans {a b c : BuildState} (h₁ : GMono a b) (h₂ : GMono b c) :
    GMono a c := by
  refine ⟨h₁.1.trans h₂.1, h₁.2.1.trans h₂.2.1, ?_, ?_, ?_⟩
  · intro k hk
    exact itemLE_trans (h₁.2.2.1 k hk) (h₂.2.2.1 k (Nat.lt_of_lt_of_le hk h₁.1))
  · intro key v hv
    exact h₂.2.2.2.1 key v (h₁.2.2.2.1 key v hv)
  · intro d hd
    exact (h₂.2.2.2.2 d (Nat.lt_of_lt_of_le hd h₁.2.1)).trans (h₁.2.2.2.2 d hd)

/-- Out-of-range items are the default object, whose pointer is null. -/
theorem getItem_default {st : BuildState} {k : Nat}
    (h : st.items.length ≤ k) : getItem st k = default :=
  List.getD_eq_default _ _ h

/-- A set goto pointer survives any monotone heap evolution. -/
theorem GMono.ptr {st st' : BuildState} (h : GMono st st') :
    ∀ k c, (getItem st k).gotoPointer = some c →
      (getItem st' k).gotoPointer = some c := by
  intro k c hc
  by_cases hk : k < st.items.length
  · exact (h.2.2.1 k hk).2.2.2.1 c hc
  · rw [getItem_default (Nat.le_of_not_lt hk)] at hc
    cases hc

/-- Build monotonicity is reflexive. -/
theorem BMono_refl (cid : Nat) (st : BuildState) : BMono cid st st :=
  ⟨⟨[], by simp⟩, ⟨[], by simp⟩, rfl, fun _ _ => rfl⟩

/-- Build monotonicity is transitive. -/
theorem BMono_trans {cid : Nat} {a b c : BuildState} (h₁ : BMono cid a b)
    (h₂ : BMono cid b c) : BMono cid a c := by
  obtain ⟨⟨e₁, he₁⟩, ⟨r₁, hr₁⟩, hl₁, hc₁⟩ := h₁
  obtain ⟨⟨e₂, he₂⟩, ⟨r₂, hr₂⟩, hl₂, hc₂⟩ := h₂
  refine ⟨⟨e₁ ++ e₂, by rw [he₂, he₁, List.append_assoc]⟩,
    ⟨r₁ ++ r₂, by rw [hr₂, hr₁, List.append_assoc]⟩, hl₂.trans hl₁, ?_⟩
  intro d hd
  exact (hc₂ d hd).trans (hc₁ d hd)

/-- `registerOrReuse` only appends to the heaps and touches no closure. -/
theorem registerOrReuse_bmono (cid : Nat) (st : BuildState) (p : Production)
    (g : Grammar) : BMono cid st (registerOrReuse st p g).1 := by
  unfold registerOrReuse
  cases h : lookupReg st (keyForItem p 0) with
  | some i => simp only [h]; exact BMono_refl cid st
  | none =>
    simp only [h, allocItem]
    exact ⟨⟨[⟨p, 0, g, none, none⟩], rfl⟩,
      ⟨[(keyForItem p 0, st.items.length)], rfl⟩, rfl, fun _ _ => rfl⟩

/-- `modifyClosure` at `cid` touches no other closure and no item. -/
theorem modifyClosure_bmono (cid : Nat) (st : BuildState)
    (f : Closure → Closure) : BMono cid st (modifyClosure st cid f) := by
  refine ⟨⟨[], by simp [modifyClosure]⟩, ⟨[], by simp [modifyClosure]⟩,
    by simp [modifyClosure], ?_⟩
  intro d hd
  simp only [modifyClosure, getClosure]
  exact getD_set_ne _ _ _ _ _ (Ne.symm hd)

/-- `Closure._build` (at any fuel) only appends items and registry
entries and only mutates the closure being built; the loop worker obeys
the same contract. -/
theorem buildMono : ∀ fuel : Nat,
    (∀ cid st st', buildStep fuel cid st = .ok st' → BMono cid st st') ∧
    (∀ cid prods st st',
       buildLoopF (buildStep fuel cid) cid prods st = .ok st' →
       BMono cid st st') := by
  intro fuel
  induction fuel with
  | zero =>
    constructor
    · intro cid st st' h
      exact absurd h (by simp [buildStep])
    · intro cid prods st st' h
      induction prods generalizing st with
      | nil =>
        simp only [buildLoopF] at h
        cases h
        exact BMono_refl _ _
      | cons kp rest ihp =>
        simp only [buildLoopF, buildStep] at h
        cases h
  | succ fuel ih =>
    have step : ∀ cid st st', buildStep (fuel + 1) cid st = .ok st' →
        BMono cid st st' := by
      intro cid st st' h
      simp only [buildStep] at h
      split at h
      · exact ih.2 cid _ st st' h
      · cases h
        exact BMono_refl _ _
    refine ⟨step, ?_⟩
    intro cid prods st st' h
    induction prods generalizing st with
    | nil =>
      simp only [buildLoopF] at h
      cases h
      exact BMono_refl _ _
    | cons kp rest ihp =>
      simp only [buildLoopF] at h
      split at h
      · cases h
      · next st₃ heq =>
        have m1 :
            BMono cid st
              (modifyClosure
                (registerOrReuse st kp.2 (getClosure st cid).grammar).1 cid
                (fun c =>
                  { c with
                    items := c.items ++
                      [(registerOrReuse st kp.2 (getClosure st cid).grammar).2],
                    currentItem :=
                      (registerOrReuse st kp.2 (getClosure st cid).grammar).2 })) :=
          BMono_trans (registerOrReuse_bmono cid st kp.2 _)
            (modifyClosure_bmono cid _ _)
        exact BMono_trans m1 (BMono_trans (step cid _ st₃ heq) (ihp st₃ h))

/-- The default (out-of-range) item is final: its production has an
empty RHS and the dot sits at 0. -/
theorem default_item_final : (default : LRItem).isFinal = true := rfl

/-- An unconnected item has a null goto pointer. -/
theorem notConnected_ptr {it : LRItem} (h : it.isConnected = false) :
    it.gotoPointer = none := by
  cases hp : it.gotoPointer with
  | none => rfl
  | some c => rw [LRItem.isConnected, hp] at h; cases h

/-- Allocating an item is a monotone heap evolution. -/
theorem gmono_alloc (st : BuildState) (it : LRItem) :
    GMono st (allocItem st it).1 := by
  refine ⟨by simp [allocItem], Nat.le_refl _, ?_, fun _ _ h => h, fun _ _ => rfl⟩
  intro k hk
  exact itemLE_of_eq (getD_append_lt _ _ _ _ hk)

/-- Allocating a closure is a monotone heap evolution. -/
theorem gmono_appendClosures (st : BuildState) (cl : Closure) :
    GMono st { st with closures := st.closures ++ [cl] } := by
  refine ⟨Nat.le_refl _, by simp, fun k _ => itemLE_refl _, fun _ _ h => h, ?_⟩
  intro d hd
  exact getD_append_lt _ _ _ _ hd

/-- Running `Closure._build` on a freshly allocated closure continues a
monotone heap evolution. -/
theorem gmono_after_build {st stb stc : BuildState} {cid : Nat}
    (h₁ : GMono st stb) (h₂ : BMono cid stb stc)
    (hcid : st.closures.length ≤ cid) : GMono st stc := by
  obtain ⟨⟨ei, hei⟩, ⟨er, her⟩, hlc, hcl⟩ := h₂
  refine ⟨?_, ?_, ?_, ?_, ?_⟩
  · exact h₁.1.trans (by rw [hei]; simp)
  · exact h₁.2.1.trans (Nat.le_of_eq hlc.symm)
  · intro k hk
    refine itemLE_trans (h₁.2.2.1 k hk) (itemLE_of_eq ?_)
    show getItem stc k = getItem stb k
    rw [getItem, getItem, hei]
    exact getD_append_lt _ _ _ _ (Nat.lt_of_lt_of_le hk h₁.1)
  · intro key v hv
    have := h₁.2.2.2.1 key v hv
    rw [lookupReg, her] at *
    exact assocLookup_append this
  · intro d hd
    have hne : d ≠ cid := Nat.ne_of_lt (Nat.lt_of_lt_of_le hd hcid)
    exact (hcl d hne).trans (h₁.2.2.2.2 d hd)

/-- Setting a previously null goto pointer is a monotone heap evolution. -/
theorem gmono_modifyPtr {st : BuildState} {i : Nat} {c : Nat}
    (h : (getItem st i).gotoPointer = none) :
    GMono st (modifyItem st i (fun x => { x with gotoPointer := some c })) := by
  refine ⟨by simp [modifyItem], by simp [modifyItem], ?_, fun _ _ hh => hh, ?_⟩
  · intro k hk
    by_cases hki : k = i
    · subst hki
      have : getItem (modifyItem st k (fun x => { x with gotoPointer := some c })) k =
          { getItem st k with gotoPointer := some c } := by
        rw [getItem, modifyItem]
        exact getD_set_self _ _ _ _ hk
      rw [this]
      refine ⟨rfl, rfl, rfl, ?_, fun _ hh => hh⟩
      intro x hx
      rw [h] at hx
      cases hx
    · refine itemLE_of_eq ?_
      show getItem _ k = getItem st k
      rw [getItem, modifyItem]
      exact getD_set_ne _ _ _ _ _ (fun hh => hki hh.symm)
  · intro d _
    rfl

/-- Contract of `LRItem.goto()` and `Closure.goto()` at every fuel: a
successful goto evolves the heap monotonically, returns exactly the
cached `_gotoPointer`, and returns null only on a final item, leaving
the state untouched. -/
theorem gotoSpec : ∀ fuel : Nat,
    (∀ i st st' r, gotoItem fuel i st = .ok (st', r) → GotoOk i st st' r) ∧
    (∀ ids st st', gotoListF (gotoItem fuel) ids st = .ok st' →
       GMono st st') := by
  intro fuel
  induction fuel with
  | zero =>
    constructor
    · intro i st st' r h
      exact absurd h (by simp [gotoItem])
    · intro ids st st' h
      induction ids generalizing st with
      | nil =>
        simp only [gotoListF] at h
        cases h
        exact GMono_refl _
      | cons j rest ihp =>
        simp only [gotoListF, gotoItem] at h
        cases h
  | succ fuel ih =>
    have step : ∀ i st st' r, gotoItem (fuel + 1) i st = .ok (st', r) →
        GotoOk i st st' r := by
      intro i st st' r h
      simp only [gotoItem, allocItem] at h
      by_cases hg :
          (!(getItem st i).isFinal && !(getItem st i).isConnected) = true
      · rw [if_pos hg] at h
        simp only [Bool.and_eq_true, Bool.not_eq_true'] at hg
        have hnf : (getItem st i).isFinal = false := hg.1
        have hnc : (getItem st i).gotoPointer = none := notConnected_ptr hg.2
        have hi : i < st.items.length := by
          by_contra hlt
          rw [getItem_default (Nat.le_of_not_lt hlt)] at hnf
          rw [default_item_final] at hnf
          cases hnf
        have hadv : advanceE (getItem st i) =
            .ok ⟨(getItem st i).production, (getItem st i).dotPosition + 1,
                 (getItem st i).grammar, none, none⟩ := by
          rw [advanceE, if_neg (by rw [hnf]; exact Bool.false_ne_true)]
        split at h
        · next e heqa =>
          rw [hadv] at heqa
          cases heqa
        · next adv heqa =>
          rw [hadv] at heqa
          cases heqa
          split at h
          · cases h
          · next st₃ heqb =>
            split at h
            · cases h
            · next st₅ heqc =>
              cases h
              have m₁ :
                  GMono st
                    { st with
                      items := st.items ++
                        [⟨(getItem st i).production,
                          (getItem st i).dotPosition + 1,
                          (getItem st i).grammar, none, none⟩],
                      closures := st.closures ++
                        [⟨st.items.length, [st.items.length], st.items.length,
                          (getItem st i).grammar⟩] } := by
                have g₁ := gmono_alloc st
                  ⟨(getItem st i).production, (getItem st i).dotPosition + 1,
                    (getItem st i).grammar, none, none⟩
                rw [allocItem] at g₁
                exact GMono_trans g₁ (gmono_appendClosures _ _)
              have m₂ : GMono st st₃ :=
                gmono_after_build m₁ ((buildMono fuel).1 _ _ st₃ heqb)
                  (Nat.le_refl _)
              have hptr₃ : (getItem st₃ i).gotoPointer = none := by
                obtain ⟨⟨ei, hei⟩, -, -, -⟩ := (buildMono fuel).1 _ _ st₃ heqb
                rw [getItem, hei]
                have hi' : i <
                    (st.items ++
                      [(⟨(getItem st i).production,
                        (getItem st i).dotPosition + 1,
                        (getItem st i).grammar, none, none⟩ : LRItem)]).length := by
                  simp only [List.length_append, List.length_cons,
                    List.length_nil]
                  omega
                rw [getD_append_lt _ _ _ _ hi']
                rw [getD_append_lt _ _ _ _ hi]
                exact hnc
              have m₃ := gmono_modifyPtr (c := st.closures.length) hptr₃
              have hi₃ : i < st₃.items.length :=
                Nat.lt_of_lt_of_le hi m₂.1
              have hptr₄ :
                  (getItem
                    (modifyItem st₃ i
                      (fun x =>
                        { x with gotoPointer := some st.closures.length }))
                    i).gotoPointer = some st.closures.length := by
                rw [getItem, modifyItem]
                rw [getD_set_self _ _ _ _ hi₃]
              have m₄ :
                  GMono
                    (modifyItem st₃ i
                      (fun x =>
                        { x with gotoPointer := some st.closures.length }))
                    st' := by
                rw [closureGotoF] at heqc
                exact ih.2 _ _ st' heqc
              refine ⟨GMono_trans (GMono_trans m₂ m₃) m₄, rfl, ?_⟩
              intro hrn
              rw [m₄.ptr i st.closures.length hptr₄] at hrn
              cases hrn
      · rw [if_neg hg] at h
        cases h
        refine ⟨GMono_refl _, rfl, ?_⟩
        intro hrn
        have hcf : (getItem st i).isConnected = false := by
          rw [LRItem.isConnected, hrn]
          rfl
        cases hfb : (getItem st i).isFinal with
        | true => exact ⟨rfl, rfl⟩
        | false =>
          exact absurd (by rw [hfb, hcf]; rfl : _ = true) hg
    refine ⟨step, ?_⟩
    intro ids st st' h
    induction ids generalizing st with
    | nil =>
      simp only [gotoListF] at h
      cases h
      exact GMono_refl _
    | cons j rest ihp =>
      simp only [gotoListF] at h
      split at h
      · cases h
      · next st₁ q heq =>
        exact GMono_trans (step j st st₁ q heq).1 (ihp st₁ h)

/-- `Closure._build` can only run out of fuel or succeed: the
`ItemFinalError` branch of `advance` is never taken during building. -/
theorem buildTotal : ∀ fuel : Nat,
    (∀ cid st, buildStep fuel cid st = .error .fuelOut ∨
       ∃ st', buildStep fuel cid st = .ok st') ∧
    (∀ cid prods st,
       buildLoopF (buildStep fuel cid) cid prods st = .error .fuelOut ∨
       ∃ st', buildLoopF (buildStep fuel cid) cid prods st = .ok st') := by
  intro fuel
  induction fuel with
  | zero =>
    constructor
    · intro cid st
      exact Or.inl rfl
    · intro cid prods st
      induction prods generalizing st with
      | nil => exact Or.inr ⟨st, rfl⟩
      | cons kp rest ihp => exact Or.inl rfl
  | succ fuel ih =>
    have c1 : ∀ cid st, buildStep (fuel + 1) cid st = .error .fuelOut ∨
        ∃ st', buildStep (fuel + 1) cid st = .ok st' := by
      intro cid st
      by_cases hc :
          (getItem st (getClosure st cid).currentItem).shouldClosure = true
      · have hrw : buildStep (fuel + 1) cid st =
            buildLoopF (buildStep fuel cid) cid
              ((getClosure st cid).grammar.getProductionsForSymbol
                (getItem st
                  (getClosure st cid).currentItem).getCurrentSymbol.symbol)
              st := by
          simp only [buildStep]
          rw [if_pos hc]
        rw [hrw]
        exact ih.2 cid _ st
      · refine Or.inr ⟨st, ?_⟩
        simp only [buildStep]
        rw [if_neg hc]
    refine ⟨c1, ?_⟩
    intro cid prods st
    induction prods generalizing st with
    | nil => exact Or.inr ⟨st, rfl⟩
    | cons kp rest ihp =>
      rcases c1 cid
          (modifyClosure
            (registerOrReuse st kp.2 (getClosure st cid).grammar).1 cid
            (fun c =>
              { c with
                items := c.items ++
                  [(registerOrReuse st kp.2 (getClosure st cid).grammar).2],
                currentItem :=
                  (registerOrReuse st kp.2 (getClosure st cid).grammar).2 }))
          with hb | ⟨st₃, hb⟩
      · refine Or.inl ?_
        simp only [buildLoopF]
        rw [hb]
      · rcases ihp st₃ with hr | ⟨st₄, hr⟩
        · refine Or.inl ?_
          simp only [buildLoopF]
          rw [hb]
          exact hr
        · refine Or.inr ⟨st₄, ?_⟩
          simp only [buildLoopF]
          rw [hb]
          exact hr

/-- `LRItem.goto()` and `Closure.goto()` can only run out of fuel or
succeed. -/
theorem gotoTotal : ∀ fuel : Nat,
    (∀ i st, gotoItem fuel i st = .error .fuelOut ∨
       ∃ pr, gotoItem fuel i st = .ok pr) ∧
    (∀ ids st, gotoListF (gotoItem fuel) ids st = .error .fuelOut ∨
       ∃ st', gotoListF (gotoItem fuel) ids st = .ok st') := by
  intro fuel
  induction fuel with
  | zero =>
    constructor
    · intro i st
      exact Or.inl rfl
    · intro ids st
      induction ids generalizing st with
      | nil => exact Or.inr ⟨st, rfl⟩
      | cons j rest ihp => exact Or.inl rfl
  | succ fuel ih =>
    have c1 : ∀ i st, gotoItem (fuel + 1) i st = .error .fuelOut ∨
        ∃ pr, gotoItem (fuel + 1) i st = .ok pr := by
      intro i st
      cases hres : gotoItem (fuel + 1) i st with
      | ok pr => exact Or.inr ⟨pr, rfl⟩
      | error e =>
        refine Or.inl ?_
        suffices he : e = .fuelOut by rw [he]
        simp only [gotoItem, allocItem] at hres
        by_cases hg :
            (!(getItem st i).isFinal && !(getItem st i).isConnected) = true
        · rw [if_pos hg] at hres
          have hnf : (getItem st i).isFinal = false := by
            simp only [Bool.and_eq_true, Bool.not_eq_true'] at hg
            exact hg.1
          have hadv : advanceE (getItem st i) =
              .ok ⟨(getItem st i).production, (getItem st i).dotPosition + 1,
                   (getItem st i).grammar, none, none⟩ := by
            rw [advanceE, if_neg (by rw [hnf]; exact Bool.false_ne_true)]
          split at hres
          · next e' heqa =>
            rw [hadv] at heqa
            cases heqa
          · next adv heqa =>
            rw [hadv] at heqa
            cases heqa
            split at hres
            · next e₂ heqb =>
              cases hres
              rcases (buildTotal fuel).1 _ _ with hb | ⟨st₃, hb⟩
              · rw [heqb] at hb
                exact Except.error.inj hb
              · rw [heqb] at hb
                cases hb
            · next st₃ heqb =>
              split at hres
              · next e₃ heqc =>
                cases hres
                rw [closureGotoF] at heqc
                rcases ih.2 _ _ with hc | ⟨st₅, hc⟩
                · rw [heqc] at hc
                  exact Except.error.inj hc
                · rw [heqc] at hc
                  cases hc
              · next st₅ heqc =>
                cases hres
        · rw [if_neg hg] at hres
          cases hres
    refine ⟨c1, ?_⟩
    intro ids st
    induction ids generalizing st with
    | nil => exact Or.inr ⟨st, rfl⟩
    | cons j rest ihp =>
      rcases c1 j st with hb | ⟨⟨st₁, q⟩, hb⟩
      · refine Or.inl ?_
        simp only [gotoListF]
        rw [hb]
      · rcases ihp st₁ with hr | ⟨st₂, hr⟩
        · refine Or.inl ?_
          simp only [gotoListF]
          rw [hb]
          exact hr
        · refine Or.inr ⟨st₂, ?_⟩
          simp only [gotoListF]
          rw [hb]
          exact hr

/-- On the left-recursive grammar, once the registry holds `S -> • S`
and the cursor sits on it, `Closure._build` consumes any amount of fuel:
each round re-reads the same registry item, pushes it again, and
recurses on an unchanged cursor. -/
theorem lr_loop_step : ∀ fuel st, LrLoop st →
    buildStep fuel 0 st = .error .fuelOut := by
  intro fuel
  induction fuel with
  | zero => intro st _; rfl
  | succ fuel ih =>
    intro st hP
    obtain ⟨hreg, hitem, hcur, hgram, hlen⟩ := hP
    have hcl : buildStep (fuel + 1) 0 st =
        buildLoopF (buildStep fuel 0) 0
          ((getClosure st 0).grammar.getProductionsForSymbol
            (getItem st
              (getClosure st 0).currentItem).getCurrentSymbol.symbol) st := by
      simp only [buildStep]
      rw [if_pos (by rw [hcur, hitem]; decide)]
    rw [hcl, hcur, hitem, hgram]
    have hprods :
        lrG.getProductionsForSymbol lrItem1.getCurrentSymbol.symbol =
          [(1, lrP1)] := by decide
    rw [hprods]
    simp only [buildLoopF, registerOrReuse]
    rw [hgram]
    have hreg' : lookupReg st (keyForItem lrP1 0) = some 1 := hreg
    rw [hreg']
    have hloop : LrLoop
        (modifyClosure st 0
          (fun c => { c with items := c.items ++ [1], currentItem := 1 })) := by
      refine ⟨hreg, hitem, ?_, ?_, ?_⟩
      · show (getClosure _ 0).currentItem = 1
        rw [getClosure, modifyClosure]
        rw [getD_set_self _ _ _ _ hlen]
      · show (getClosure _ 0).grammar = lrG
        rw [getClosure, modifyClosure]
        rw [getD_set_self _ _ _ _ hlen]
        exact hgram
      · show 0 < (modifyClosure st 0 _).closures.length
        simpa [modifyClosure] using hlen
    rw [ih _ hloop]

/-- Claim C2 evaluation: on the finite left-recursive grammar `S -> S`
the whole-graph construction `closure()` followed by `goto()` on the
root kernel item never completes, whatever fuel it is given:
`Closure._build` re-expands the registry-shared item `S -> • S` without
any visited check, so the recursion is unbounded. -/
theorem lr_leftrec_diverges : ∀ fuel, construct fuel 0 lrSt = .error .fuelOut := by
  intro fuel
  cases fuel with
  | zero => decide
  | succ n =>
    have hb : buildStep (n + 1) 0 lrSt₁ =
        (match buildStep n 0 lrSt₃ with
         | .error e => .error e
         | .ok st₃ => buildLoopF (buildStep n 0) 0 [] st₃) := rfl
    have hb2 : buildStep (n + 1) 0 lrSt₁ = .error .fuelOut := by
      rw [hb, lr_loop_step n lrSt₃ (by decide)]
    have hA : construct (n + 1) 0 lrSt =
        (match closureOp (n + 1) 0 lrSt with
         | .error e => .error e
         | .ok (st₁, some c) => closureGoto (n + 1) c st₁
         | .ok (_, none) => .error .typeError) := rfl
    have hB : closureOp (n + 1) 0 lrSt =
        (match buildStep (n + 1) 0 lrSt₁ with
         | .error e => .error e
         | .ok st₂ =>
           .ok (modifyItem st₂ 0 (fun x => { x with closure := some 0 }),
                (getItem
                  (modifyItem st₂ 0 (fun x => { x with closure := some 0 }))
                  0).closure)) := rfl
    rw [hA, hB, hb2]

/-- In a normalized grammar, key 0 of `_bnf` can only hold the augmented
production: the worker stores it there on the first iteration and every
user production gets key `k + 1 ≥ 1`. -/
theorem bnfZeroAux : ∀ (raws : List (List Char)) (k : Nat)
    (cur : List Char) (acc : List (Nat × Production))
    (start : Option (List Char)) (aug : Option Production) (g : Grammar),
    Grammar.normalizeBnfAux k cur acc start aug raws = .ok g →
    (∀ q, (0, q) ∈ acc → aug = some q) →
    (k = 0 → ∀ q, (0, q) ∉ acc) →
    (∀ q, (0, q) ∈ g.bnf → g.isAugmentedProduction = some q) := by
  intro raws
  induction raws with
  | nil =>
    intro k cur acc start aug g h h1 _ q hq
    simp only [Grammar.normalizeBnfAux] at h
    cases h
    exact h1 q hq
  | cons raw rest ih =>
    intro k cur acc start aug g h h1 h2 q hq
    simp only [Grammar.normalizeBnfAux] at h
    split at h
    · cases h
    · next p₀ heq =>
      split at h
      · next hk0 =>
        split at h
        · cases h
        · next augP heq₂ =>
          refine ih (k + 1) _ _ _ _ g h ?_ ?_ q hq
          · intro q' hq'
            rcases List.mem_append.mp hq' with hin | hin
            · exact absurd hin (h2 hk0 q')
            · rcases List.mem_cons.mp hin with he | he
              · rw [(Prod.mk.injEq _ _ _ _).mp he.symm |>.2]
              · rcases List.mem_cons.mp he with he₂ | he₂
                · exact absurd ((Prod.mk.injEq _ _ _ _).mp he₂).1 (by omega)
                · cases he₂
          · intro hk1
            exact absurd hk1 (by omega)
      · next hk0 =>
        refine ih (k + 1) _ _ _ _ g h ?_ ?_ q hq
        · intro q' hq'
          rcases List.mem_append.mp hq' with hin | hin
          · exact h1 q' hin
          · rcases List.mem_cons.mp hin with he | he
            · exact absurd ((Prod.mk.injEq _ _ _ _).mp he).1 (by omega)
            · cases he
        · intro hk1
          exact absurd hk1 (by omega)

/-- In a normalized grammar, the stored augmented production is always
the result of normalizing the interpolated string built from the stored
start symbol. -/
theorem bnfAugAux : ∀ (raws : List (List Char)) (k : Nat)
    (cur : List Char) (acc : List (Nat × Production))
    (start : Option (List Char)) (aug : Option Production) (g : Grammar),
    Grammar.normalizeBnfAux k cur acc start aug raws = .ok g →
    (∀ S p, start = some S → aug = some p →
       Production.normalize (S ++ "\x27 -> ".data ++ S) = .ok p) →
    (∀ S p, g.startSymbol = some S → g.isAugmentedProduction = some p →
       Production.normalize (S ++ "\x27 -> ".data ++ S) = .ok p) := by
  intro raws
  induction raws with
  | nil =>
    intro k cur acc start aug g h hh S p hS hp
    simp only [Grammar.normalizeBnfAux] at h
    cases h
    exact hh S p hS hp
  | cons raw rest ih =>
    intro k cur acc start aug g h hh S p hS hp
    simp only [Grammar.normalizeBnfAux] at h
    split at h
    · cases h
    · next p₀ heq =>
      split at h
      · next hk0 =>
        split at h
        · cases h
        · next augP heq₂ =>
          refine ih (k + 1) _ _ _ _ g h ?_ S p hS hp
          intro S' p' hS' hp'
          cases Option.some.inj hS'
          cases Option.some.inj hp'
          exact heq₂
      · next hk0 =>
        exact ih (k + 1) _ _ _ _ g h hh S p hS hp

/-- The two invariants instantiated at the public constructor. -/
theorem ofLines_bnfZero {raws : List (List Char)} {g : Grammar}
    (h : Grammar.ofLines raws = .ok g) :
    ∀ q, (0, q) ∈ g.bnf → g.isAugmentedProduction = some q :=
  bnfZeroAux raws 0 _ [] none none g h (fun q hq => absurd hq (by simp))
    (fun _ q hq => absurd hq (by simp))

/-- The augmented production of a normalized grammar is the normalized
interpolation `S' -> S` of its start symbol. -/
theorem ofLines_aug {raws : List (List Char)} {g : Grammar} {S : List Char}
    {p : Production} (h : Grammar.ofLines raws = .ok g)
    (hS : g.startSymbol = some S) (hp : g.isAugmentedProduction = some p) :
    Production.normalize (S ++ "\x27 -> ".data ++ S) = .ok p :=
  bnfAugAux raws 0 _ [] none none g h
    (fun _ _ hS' _ => by cases hS') S p hS hp

/-! ### Split, trim and tokenize lemmas -/

/-- The split worker ignores surplus fuel. -/
theorem splitOnAux_fuel (sep : List Char) : ∀ f₁ f₂ s, s.length ≤ f₁ →
    s.length ≤ f₂ → splitOnAux sep f₁ s = splitOnAux sep f₂ s := by
  intro f₁
  induction f₁ with
  | zero =>
    intro f₂ s hs₁ _
    have : s = [] := List.eq_nil_of_length_eq_zero (Nat.le_zero.mp hs₁)
    subst this
    cases f₂ <;> rfl
  | succ f₁ ih =>
    intro f₂ s hs₁ hs₂
    cases s with
    | nil => cases f₂ <;> rfl
    | cons c rest =>
      cases f₂ with
      | zero => simp at hs₂
      | succ f₂ =>
        simp only [splitOnAux]
        by_cases hcond : sep ≠ [] ∧ List.isPrefixOf sep (c :: rest) = true
        · rw [if_pos hcond, if_pos hcond]
          have hlen : ((c :: rest).drop sep.length).length ≤ f₁ := by
            have : 0 < sep.length := List.length_pos.mpr hcond.1
            simp only [List.length_drop, List.length_cons]
            simp only [List.length_cons] at hs₁
            omega
          have hlen₂ : ((c :: rest).drop sep.length).length ≤ f₂ := by
            have : 0 < sep.length := List.length_pos.mpr hcond.1
            simp only [List.length_drop, List.length_cons]
            simp only [List.length_cons] at hs₂
            omega
          rw [ih _ _ hlen hlen₂]
        · rw [if_neg hcond, if_neg hcond]
          have hr : rest.length ≤ f₁ := by
            simp only [List.length_cons] at hs₁; omega
          have hr₂ : rest.length ≤ f₂ := by
            simp only [List.length_cons] at hs₂; omega
          rw [ih _ _ hr hr₂]

/-- Unfolding `splitOnL` at a separator occurrence. -/
theorem splitOnL_hit {sep : List Char} (hne : sep ≠ []) {c : Char}
    {rest : List Char} (hpre : List.isPrefixOf sep (c :: rest) = true) :
    splitOnL sep (c :: rest) =
      [] :: splitOnL sep ((c :: rest).drop sep.length) := by
  show splitOnAux sep (rest.length + 1) (c :: rest) = _
  simp only [splitOnAux]
  rw [if_pos ⟨hne, hpre⟩]
  congr 1
  refine splitOnAux_fuel sep _ _ _ ?_ (Nat.le_refl _)
  have : 0 < sep.length := List.length_pos.mpr hne
  simp only [List.length_drop, List.length_cons]
  omega

/-- Unfolding `splitOnL` away from a separator occurrence. -/
theorem splitOnL_miss {sep : List Char} {c : Char} {rest : List Char}
    (h : ¬(sep ≠ [] ∧ List.isPrefixOf sep (c :: rest) = true)) :
    splitOnL sep (c :: rest) =
      match splitOnL sep rest with
      | [] => [[c]]
      | r :: rs => (c :: r) :: rs := by
  show splitOnAux sep (rest.length + 1) (c :: rest) = _
  simp only [splitOnAux]
  rw [if_neg h]
  rfl

/-- A split never returns the empty list of pieces. -/
theorem splitOnAux_ne_nil (sep : List Char) : ∀ f s,
    splitOnAux sep f s ≠ [] := by
  intro f
  induction f with
  | zero =>
    intro s
    cases s <;> simp [splitOnAux]
  | succ f ih =>
    intro s
    cases s with
    | nil => simp [splitOnAux]
    | cons c rest =>
      simp only [splitOnAux]
      split
      · simp
      · split <;> simp

/-- A separator is a prefix of itself followed by anything. -/
theorem isPrefixOf_self_append : ∀ (l t : List Char),
    List.isPrefixOf l (l ++ t) = true := by
  intro l
  induction l with
  | nil => intro t; simp [List.isPrefixOf]
  | cons a as ih =>
    intro t
    simp only [List.cons_append, List.isPrefixOf_cons₂_self]
    exact ih t

/-- Dropping the length of a left factor. -/
theorem drop_len_append {α : Type} : ∀ (l t : List α),
    (l ++ t).drop l.length = t := by
  intro l
  induction l with
  | nil => intro t; rfl
  | cons a as ih => intro t; simp only [List.cons_append, List.length_cons, List.drop_succ_cons]; exact ih t

/-- Splitting a string that starts with the separator. -/
theorem splitOn_head_hit {sep : List Char} (hne : sep ≠ []) (b : List Char) :
    splitOnL sep (sep ++ b) = [] :: splitOnL sep b := by
  cases sep with
  | nil => exact absurd rfl hne
  | cons s₀ sep' =>
    rw [List.cons_append]
    rw [splitOnL_hit hne
      (by rw [← List.cons_append]; exact isPrefixOf_self_append _ b)]
    rw [← List.cons_append]
    rw [drop_len_append]

/-- A string in which the separator never occurs splits into itself. -/
theorem splitOn_no (sep : List Char) : ∀ s,
    (∀ (a₁ a₂ : List Char) (x : Char), s = a₁ ++ x :: a₂ →
       List.isPrefixOf sep (x :: a₂) = false) →
    splitOnL sep s = [s] := by
  intro s
  induction s with
  | nil => intro _; rfl
  | cons c rest ih =>
    intro hno
    have hm : List.isPrefixOf sep (c :: rest) = false :=
      hno [] rest c rfl
    rw [splitOnL_miss (by rw [hm]; exact fun hh => Bool.false_ne_true hh.2)]
    rw [ih (fun a₁ a₂ x hx =>
      hno (c :: a₁) a₂ x (by rw [hx, List.cons_append]))]

/-- Splitting `a ++ b` when no separator occurrence starts inside `a`. -/
theorem splitOn_skip (sep : List Char) : ∀ (a b : List Char),
    (∀ (a₁ a₂ : List Char) (x : Char), a = a₁ ++ x :: a₂ →
       List.isPrefixOf sep (x :: (a₂ ++ b)) = false) →
    ∀ r rs, splitOnL sep b = r :: rs →
      splitOnL sep (a ++ b) = (a ++ r) :: rs := by
  intro a
  induction a with
  | nil =>
    intro b _ r rs hb
    simpa using hb
  | cons c a' ih =>
    intro b hno r rs hb
    rw [List.cons_append]
    have hm : List.isPrefixOf sep (c :: (a' ++ b)) = false :=
      hno [] a' c rfl
    rw [splitOnL_miss (by rw [hm]; exact fun hh => Bool.false_ne_true hh.2)]
    rw [ih b (fun a₁ a₂ x hx =>
      hno (c :: a₁) a₂ x (by rw [hx, List.cons_append])) r rs hb]
    rfl

/-- The separator does occur in `a ++ sep ++ b`. -/
theorem hasSub_mid (sep : List Char) : ∀ (a b : List Char),
    hasSubL sep (a ++ (sep ++ b)) = true := by
  intro a
  induction a with
  | nil =>
    intro b
    cases hsb : sep ++ b with
    | nil => simp only [List.nil_append, hsb, hasSubL]
             rw [List.append_eq_nil] at hsb
             rw [hsb.1]
             rfl
    | cons c rest =>
      simp only [List.nil_append, hsb, hasSubL]
      rw [← hsb, isPrefixOf_self_append]
      rfl
  | cons c a' ih =>
    intro b
    simp only [List.cons_append, hasSubL]
    rw [List.append_eq, ih b, Bool.or_true]

/-- Trimming the left part `S' ` of the split augmented line. -/
theorem trimL_quote_space {S : List Char} (hne : S ≠ [])
    (hch : ∀ c ∈ S, isWS c = false) :
    trimL (S ++ ['\x27', ' ']) = S ++ ['\x27'] := by
  cases S with
  | nil => exact absurd rfl hne
  | cons c S' =>
    have hc : isWS c = false := hch c (List.mem_cons_self _ _)
    rw [trimL]
    rw [List.cons_append, List.dropWhile_cons, hc]
    simp only [Bool.false_eq_true, if_false]
    rw [← List.cons_append, List.reverse_append]
    show (List.dropWhile isWS
      (' ' :: '\x27' :: (c :: S').reverse)).reverse = _
    rw [List.dropWhile_cons]
    simp only [show isWS ' ' = true from rfl, if_true]
    rw [List.dropWhile_cons]
    simp only [show isWS '\x27' = false from rfl, Bool.false_eq_true, if_false]
    simp

/-- Trimming the right part ` S` of the split augmented line. -/
theorem trimL_space_word {S : List Char} (hne : S ≠ [])
    (hch : ∀ c ∈ S, isWS c = false) : trimL (' ' :: S) = S := by
  rw [trimL]
  rw [List.dropWhile_cons]
  simp only [show isWS ' ' = true from rfl, if_true]
  have h₁ : List.dropWhile isWS S = S := by
    cases S with
    | nil => rfl
    | cons c S' =>
      rw [List.dropWhile_cons, hch c (List.mem_cons_self _ _)]
      simp
  rw [h₁]
  cases hr : S.reverse with
  | nil =>
    rw [List.reverse_eq_nil_iff] at hr
    exact absurd hr hne
  | cons d t =>
    have hd : isWS d = false := by
      refine hch d ?_
      rw [← List.mem_reverse, hr]
      exact List.mem_cons_self _ _
    rw [List.dropWhile_cons, hd]
    simp only [Bool.false_eq_true, if_false]
    rw [← hr]
    simp

/-- Tokenizing a single whitespace-free word. -/
theorem wordsL_single {S : List Char} (hne : S ≠ [])
    (hch : ∀ c ∈ S, isWS c = false) : wordsL S = [S] := by
  rw [wordsL]
  rw [List.splitOnP_eq_single _ _ (fun x hx => by rw [hch x hx]; exact Bool.false_ne_true)]
  cases S with
  | nil => exact absurd rfl hne
  | cons c S' => simp [List.filter]

/-- A head different from the dash cannot start the arrow. -/
theorem arrow_head_ne {x : Char} (hx : x ≠ '-') (l : List Char) :
    List.isPrefixOf ("->".data) (x :: l) = false := by
  show List.isPrefixOf ('-' :: '>' :: []) (x :: l) = false
  rw [List.isPrefixOf]
  rw [beq_eq_false_iff_ne.mpr (Ne.symm hx)]
  rfl

/-- Normalizing the synthesized augmented line `S' -> S` for a start
symbol that is a plain token: the LHS becomes `S'` and the RHS the
single symbol `S`. -/
theorem normalize_aug_production (S : List Char) (hne : S ≠ [])
    (hch : ∀ c ∈ S, isWS c = false ∧ c ≠ '-') :
    Production.normalize (S ++ "\x27 -> ".data ++ S) =
      .ok ⟨S ++ "\x27 -> ".data ++ S, ⟨S ++ ['\x27']⟩, [⟨S⟩]⟩ := by
  have hshape : S ++ "\x27 -> ".data ++ S =
      (S ++ ['\x27', ' ']) ++ ("->".data ++ (' ' :: S)) := by
    show S ++ ['\x27', ' ', '-', '>', ' '] ++ S = _
    simp
  have hsub : hasSubL ("->".data) (S ++ "\x27 -> ".data ++ S) = true := by
    rw [hshape]
    exact hasSub_mid _ _ _
  have htail : splitOnL ("->".data) (' ' :: S) = [' ' :: S] := by
    refine splitOn_no _ _ ?_
    intro a₁ a₂ x hx
    refine arrow_head_ne ?_ a₂
    rcases a₁ with _ | ⟨y, a₁'⟩
    · cases hx
      exact fun hh => by cases hh
    · rw [List.cons_append] at hx
      have hxS : x ∈ S := by
        have := (List.cons.inj hx).2
        rw [this]
        exact List.mem_append_right _ (List.mem_cons_self _ _)
      exact (hch x hxS).2
  have hsplit : splitOnL ("->".data) (S ++ "\x27 -> ".data ++ S) =
      [S ++ ['\x27', ' '], ' ' :: S] := by
    rw [hshape]
    have hmid : splitOnL ("->".data) ("->".data ++ (' ' :: S)) =
        [] :: [' ' :: S] := by
      rw [splitOn_head_hit (by simp) _]
      rw [htail]
    refine (splitOn_skip _ _ _ ?_ [] [' ' :: S] hmid).trans (by simp)
    intro a₁ a₂ x hx
    refine arrow_head_ne ?_ _
    have hxmem : x ∈ S ++ ['\x27', ' '] := by
      rw [hx]
      exact List.mem_append_right _ (List.mem_cons_self _ _)
    rcases List.mem_append.mp hxmem with hxS | hxq
    · exact (hch x hxS).2
    · rcases List.mem_cons.mp hxq with he | he
      · rw [he]; exact fun hh => by cases hh
      · rcases List.mem_cons.mp he with he₂ | he₂
        · rw [he₂]; exact fun hh => by cases hh
        · cases he₂
  rw [Production.normalize]
  rw [if_pos hsub, hsplit]
  show Except.ok _ = _
  simp only [List.getElem_cons_succ, List.getElem_cons_zero,
    List.headD_cons]
  have hrhs : trimL (' ' :: S) = S :=
    trimL_space_word hne (fun c hc => (hch c hc).1)
  rw [hrhs]
  have hSne : S.isEmpty = false := by
    cases S with
    | nil => exact absurd rfl hne
    | cons c S' => rfl
  rw [hSne]
  simp only [Bool.false_eq_true, if_false]
  rw [wordsL_single hne (fun c hc => (hch c hc).1)]
  rw [trimL_quote_space hne (fun c hc => (hch c hc).1)]
  rfl

/-- C1: registry sharing invariant.  When the registry already resolves
the serialized dot-0 key of a production to item `i`, then (a) every
further `register` for that production returns the same instance `i`
and allocates nothing, and (b) along any further closure expansion or
goto construction the registry keeps resolving that key to `i`, and the
goto target of `i`, once computed, is observed unchanged — so the dot-0
items reached via different expansion paths, and their goto closures,
are literally the same objects. -/
theorem lr_registry_sharing (st : BuildState) (p : Production) (g : Grammar)
    (i : Nat) (h : lookupReg st (keyForItem p 0) = some i) :
    registerOrReuse st p g = (st, i) ∧
    (∀ fuel cid st', buildStep fuel cid st = .ok st' →
       lookupReg st' (keyForItem p 0) = some i ∧
       ∀ c, (getItem st i).gotoPointer = some c →
         (getItem st' i).gotoPointer = some c) ∧
    (∀ fuel j st' q, gotoItem fuel j st = .ok (st', q) →
       lookupReg st' (keyForItem p 0) = some i ∧
       ∀ c, (getItem st i).gotoPointer = some c →
         (getItem st' i).gotoPointer = some c) := by
  refine ⟨?_, ?_, ?_⟩
  · simp only [registerOrReuse]
    rw [h]
  · intro fuel cid st' hb
    obtain ⟨⟨ei, hei⟩, ⟨er, her⟩, -, -⟩ := (buildMono fuel).1 cid st st' hb
    constructor
    · rw [lookupReg, her]
      exact assocLookup_append h
    · intro c hc
      by_cases hi : i < st.items.length
      · rw [getItem, hei, getD_append_lt _ _ _ _ hi]
        exact hc
      · rw [getItem_default (Nat.le_of_not_lt hi)] at hc
        cases hc
  · intro fuel j st' q hgo
    have hm := ((gotoSpec fuel).1 j st st' q hgo).1
    exact ⟨hm.2.2.2.1 _ i h, fun c hc => hm.ptr i c hc⟩

/-- C1 witness: in the concrete one-entry registry state, the register
operation returns the cached instance and the state unchanged. -/
theorem lr_registry_sharing_witness :
    registerOrReuse regWSt pAb exG = (regWSt, 0) :=
  (lr_registry_sharing regWSt pAb exG 0 (by decide)).1

/-- C3: `goto()` is memoized and idempotent per item: a second call on
the same item object returns the identical Closure reference and leaves
the state untouched, and on a final item `goto()` returns nothing and
builds no closure. -/
theorem lr_goto_memoized :
    (∀ fuel fuel' i st st₁ r, gotoItem (fuel + 1) i st = .ok (st₁, r) →
       gotoItem (fuel' + 1) i st₁ = .ok (st₁, r)) ∧
    (∀ fuel i st, (getItem st i).isFinal = true →
       (getItem st i).gotoPointer = none →
       gotoItem (fuel + 1) i st = .ok (st, none)) := by
  constructor
  · intro fuel fuel' i st st₁ r h
    obtain ⟨hmono, hr, hnone⟩ := (gotoSpec (fuel + 1)).1 i st st₁ r h
    cases hrc : r with
    | some c =>
      subst hrc
      have hc : (getItem st₁ i).gotoPointer = some c := hr.symm
      simp only [gotoItem]
      rw [if_neg (by
        rw [LRItem.isConnected, hc]
        simp)]
      rw [hc]
    | none =>
      subst hrc
      obtain ⟨hfin, hsteq⟩ := hnone rfl
      simp only [gotoItem]
      rw [if_neg (by rw [hfin]; simp)]
      rw [← hr]
  · intro fuel i st hf hp
    simp only [gotoItem]
    rw [if_neg (by rw [hf]; simp)]
    rw [hp]

/-- C3 witness: the concrete second goto call returns the same Closure
reference with the state unchanged, and goto on the concrete final item
returns nothing without building anything. -/
theorem lr_goto_memoized_witness :
    gotoItem 5 0 gotoWSt₁ = .ok (gotoWSt₁, some 0) ∧
    gotoItem 7 1 gotoWSt₁ = .ok (gotoWSt₁, none) :=
  ⟨lr_goto_memoized.1 2 4 0 gotoWSt gotoWSt₁ (some 0) (by decide),
   lr_goto_memoized.2 6 1 gotoWSt₁ (by decide) (by decide)⟩

/-- C5: `advance()` raises `ItemFinalError` exactly when the dot equals
the RHS length; on a non-final item it yields a new item with the dot
advanced by one over the same production object and grammar, and the
freshly allocated object is not stored in the registry (the registry is
untouched and never resolves to the new reference). -/
theorem lr_advance_contract :
    (∀ it : LRItem, (advanceE it = .error .itemFinal ↔
       it.dotPosition = it.production.RHS.length)) ∧
    (∀ it : LRItem, it.dotPosition ≠ it.production.RHS.length →
       advanceE it = .ok ⟨it.production, it.dotPosition + 1, it.grammar,
         none, none⟩) ∧
    (∀ st it, (∀ key v, lookupReg st key = some v → v < st.items.length) →
       ((allocItem st it).1.registry = st.registry ∧
        ∀ key, lookupReg (allocItem st it).1 key ≠ some (allocItem st it).2)) := by
  refine ⟨?_, ?_, ?_⟩
  · intro it
    constructor
    · intro h
      by_cases hf : it.isFinal = true
      · rw [LRItem.isFinal] at hf
        exact eq_of_beq hf
      · rw [advanceE, if_neg hf] at h
        cases h
    · intro h
      rw [advanceE, if_pos (by simp [LRItem.isFinal, h])]
  · intro it h
    rw [advanceE, if_neg (by rw [LRItem.isFinal]; simp [h])]
  · intro st it hwf
    refine ⟨rfl, ?_⟩
    intro key hk
    have : st.items.length < st.items.length := hwf key _ hk
    exact absurd this (Nat.lt_irrefl _)

/-- C5 witness: the contract evaluated on the concrete final item, the
concrete non-final item, and the empty-registry state. -/
theorem lr_advance_contract_witness :
    advanceE ⟨pAb, 1, exG, none, none⟩ = .error .itemFinal ∧
    advanceE ⟨pAb, 0, exG, none, none⟩ = .ok ⟨pAb, 1, exG, none, none⟩ ∧
    (allocItem ⟨[], [], []⟩ ⟨pAb, 0, exG, none, none⟩).1.registry = [] :=
  ⟨(lr_advance_contract.1 _).mpr (by decide),
   lr_advance_contract.2.1 _ (by decide),
   (lr_advance_contract.2.2 ⟨[], [], []⟩ ⟨pAb, 0, exG, none, none⟩
     (fun key v hv => by simp [lookupReg, assocLookup] at hv)).1⟩

/-- C6: for a grammar whose start symbol is a plain token (non-empty,
no whitespace, no dash — the identifier inputs the interface admits),
the serialized form of the augmented kernel item at dot 0 is exactly
the string `S' -> • S` built from the start symbol. -/
theorem lr_augmented_serialize (raws : List (List Char)) (g : Grammar)
    (S : List Char) (p : Production)
    (hg : Grammar.ofLines raws = .ok g)
    (hS : g.startSymbol = some S)
    (hp : g.isAugmentedProduction = some p)
    (hne : S ≠ [])
    (hch : ∀ c ∈ S, isWS c = false ∧ c ≠ '-') :
    keyForItem p 0 = S ++ "\x27 -> • ".data ++ S := by
  have hnorm := ofLines_aug hg hS hp
  rw [normalize_aug_production S hne hch] at hnorm
  have hpe := Except.ok.inj hnorm
  rw [← hpe]
  show (S ++ ['\x27']) ++ [' ', '-', '>', ' '] ++
      joinSp (insertAtL 0 ['•']
        (List.map (fun s => s.symbol) [(⟨S⟩ : GrammarSymbol)])) =
    S ++ ['\x27', ' ', '-', '>', ' ', '•', ' '] ++ S
  show (S ++ ['\x27']) ++ [' ', '-', '>', ' '] ++ ('•' :: ' ' :: S) = _
  simp

/-- C6 witness: the example grammar serializes its augmented kernel item
to `S' -> • S`. -/
theorem lr_augmented_serialize_witness :
    keyForItem exAug 0 = "S".data ++ "\x27 -> • ".data ++ "S".data :=
  lr_augmented_serialize exLines exG ("S".data) exAug (by decide) (by decide)
    (by decide) (by decide) (by decide)

/-- C8: `getProductionsForSymbol` returns exactly the `_bnf` entries
whose LHS equals the queried symbol, production numbers preserved as
keys, and entry 0 — the only entry the scan can pick up besides the
user productions — is always the augmented production, so the augmented
production is excluded unless its own primed symbol is queried. -/
theorem lr_productions_for_symbol (raws : List (List Char)) (g : Grammar)
    (sym : List Char) (hg : Grammar.ofLines raws = .ok g) :
    (∀ k p, (k, p) ∈ g.getProductionsForSymbol sym ↔
       ((k, p) ∈ g.bnf ∧ p.LHS.isSymbol sym = true)) ∧
    (∀ p, (0, p) ∈ g.bnf → g.isAugmentedProduction = some p) := by
  constructor
  · intro k p
    simp [Grammar.getProductionsForSymbol, List.mem_filter]
  · exact ofLines_bnfZero hg

/-- C8 witness: membership characterization evaluated at the concrete
continuation production of the example grammar. -/
theorem lr_productions_for_symbol_witness :
    (3, pAb) ∈ exG.getProductionsForSymbol ("A".data) ↔
      ((3, pAb) ∈ exG.bnf ∧ pAb.LHS.isSymbol ("A".data) = true) :=
  (lr_productions_for_symbol exLines exG ("A".data) (by decide)).1 3 pAb

/-- C9: no operation of the construction ever surfaces the
`ItemFinalError`: at every fuel, `_build`, `goto()`, `Closure.goto()`,
`closure()` and the whole-graph entry point either run out of fuel (or,
for the entry point, hit the TypeError of chaining `goto` on a void
`closure()` result) or succeed — `advance()` is only ever invoked
behind the non-final guard of `goto()`. -/
theorem lr_itemfinal_unreachable : ∀ fuel : Nat,
    (∀ cid st, buildStep fuel cid st = .error .fuelOut ∨
       ∃ st', buildStep fuel cid st = .ok st') ∧
    (∀ i st, gotoItem fuel i st = .error .fuelOut ∨
       ∃ pr, gotoItem fuel i st = .ok pr) ∧
    (∀ c st, closureGoto fuel c st = .error .fuelOut ∨
       ∃ st', closureGoto fuel c st = .ok st') ∧
    (∀ i st, closureOp fuel i st = .error .fuelOut ∨
       ∃ pr, closureOp fuel i st = .ok pr) ∧
    (∀ i st, construct fuel i st = .error .fuelOut ∨
       construct fuel i st = .error .typeError ∨
       ∃ st', construct fuel i st = .ok st') := by
  intro fuel
  have hb := (buildTotal fuel).1
  have hg := (gotoTotal fuel).1
  have hgl := (gotoTotal fuel).2
  have hcg : ∀ c st, closureGoto fuel c st = .error .fuelOut ∨
      ∃ st', closureGoto fuel c st = .ok st' := by
    intro c st
    rw [closureGoto, closureGotoF]
    exact hgl _ st
  have hco : ∀ i st, closureOp fuel i st = .error .fuelOut ∨
      ∃ pr, closureOp fuel i st = .ok pr := by
    intro i st
    by_cases hc : (getItem st i).shouldClosure = true
    · rcases hb st.closures.length
          { st with closures := st.closures ++
            [⟨i, [i], i, (getItem st i).grammar⟩] } with he | ⟨st₂, he⟩
      · refine Or.inl ?_
        simp only [closureOp]
        rw [if_pos hc, he]
      · refine Or.inr
          ⟨(modifyItem st₂ i
              (fun x => { x with closure := some st.closures.length }),
            (getItem
              (modifyItem st₂ i
                (fun x => { x with closure := some st.closures.length }))
              i).closure), ?_⟩
        simp only [closureOp]
        rw [if_pos hc, he]
    · refine Or.inr ⟨(st, none), ?_⟩
      simp only [closureOp]
      rw [if_neg hc]
  refine ⟨hb, hg, hcg, hco, ?_⟩
  intro i st
  rcases hco i st with he | ⟨⟨st₁, oc⟩, he⟩
  · refine Or.inl ?_
    simp only [construct]
    rw [he]
  · cases oc with
    | none =>
      refine Or.inr (Or.inl ?_)
      simp only [construct]
      rw [he]
    | some c =>
      rcases hcg c st₁ with hc2 | ⟨st₂, hc2⟩
      · refine Or.inl ?_
        simp only [construct]
        rw [he]
        exact hc2
      · refine Or.inr (Or.inr ⟨st₂, ?_⟩)
        simp only [construct]
        rw [he]
        exact hc2

/-- C10: an item whose dot symbol is the epsilon marker is closurable —
`ε` is unquoted, hence classified as a non-terminal — and when no
production of the owning grammar has `ε` as its LHS, `closure()`
succeeds and the resulting Closure holds exactly the kernel item. -/
theorem lr_epsilon_closure :
    (∀ it : LRItem, it.isFinal = false → it.getCurrentSymbol = ⟨EPSILON⟩ →
       it.shouldClosure = true) ∧
    (∀ fuel st i, i < st.items.length →
       (getItem st i).isFinal = false →
       (getItem st i).getCurrentSymbol = ⟨EPSILON⟩ →
       (∀ kp ∈ (getItem st i).grammar.bnf,
          kp.2.LHS.isSymbol EPSILON = false) →
       closureOp (fuel + 1) i st =
         .ok (epsClosureResult st i, some st.closures.length) ∧
       (getClosure (epsClosureResult st i) st.closures.length).items = [i]) := by
  have part1 : ∀ it : LRItem, it.isFinal = false →
      it.getCurrentSymbol = ⟨EPSILON⟩ → it.shouldClosure = true := by
    intro it hf hsym
    rw [LRItem.shouldClosure, hf, hsym]
    decide
  refine ⟨part1, ?_⟩
  intro fuel st i hi hf hsym hgr
  have hsc : (getItem st i).shouldClosure = true := part1 _ hf hsym
  have hprods : (getItem st i).grammar.getProductionsForSymbol
      ((getItem st i).getCurrentSymbol.symbol) = [] := by
    rw [hsym]
    rw [Grammar.getProductionsForSymbol]
    refine List.filter_eq_nil_iff.mpr ?_
    intro kp hkp
    rw [hgr kp hkp]
    exact Bool.false_ne_true
  have hcl : getClosure
      { st with closures := st.closures ++
        [⟨i, [i], i, (getItem st i).grammar⟩] } st.closures.length =
      ⟨i, [i], i, (getItem st i).grammar⟩ := by
    rw [getClosure]
    exact getD_append_len _ _ _
  have hbs : buildStep (fuel + 1) st.closures.length
      { st with closures := st.closures ++
        [⟨i, [i], i, (getItem st i).grammar⟩] } =
      .ok { st with closures := st.closures ++
        [⟨i, [i], i, (getItem st i).grammar⟩] } := by
    simp only [buildStep]
    rw [hcl]
    have hgi : getItem
        { st with closures := st.closures ++
          [⟨i, [i], i, (getItem st i).grammar⟩] } i = getItem st i := rfl
    rw [hgi, if_pos hsc, hprods]
    rfl
  have hresult : (getItem
      (modifyItem
        { st with closures := st.closures ++
          [⟨i, [i], i, (getItem st i).grammar⟩] } i
        (fun x => { x with closure := some st.closures.length }))
      i).closure = some st.closures.length := by
    rw [getItem, modifyItem]
    exact congrArg LRItem.closure (getD_set_self _ _ _ _ hi)
  constructor
  · simp only [closureOp]
    rw [if_pos hsc, hbs]
    show Except.ok _ = Except.ok _
    rw [show (epsClosureResult st i) = modifyItem
      { st with closures := st.closures ++
        [⟨i, [i], i, (getItem st i).grammar⟩] } i
      (fun x => { x with closure := some st.closures.length }) from rfl]
    rw [hresult]
  · rw [show (epsClosureResult st i) = modifyItem
      { st with closures := st.closures ++
        [⟨i, [i], i, (getItem st i).grammar⟩] } i
      (fun x => { x with closure := some st.closures.length }) from rfl]
    show ((st.closures ++
      [(⟨i, [i], i, (getItem st i).grammar⟩ : Closure)]).getD
        st.closures.length default).items = [i]
    rw [getD_append_len]

/-- C10 witness: the kernel item of `F -> ε` at dot 0 is closurable and
its closure holds exactly the kernel. -/
theorem lr_epsilon_closure_witness :
    (⟨pFe, 0, epsG, none, none⟩ : LRItem).shouldClosure = true ∧
    closureOp 2 0 epsSt = .ok (epsClosureResult epsSt 0, some 0) ∧
    (getClosure (epsClosureResult epsSt 0) 0).items = [0] := by
  have h := lr_epsilon_closure.2 1 epsSt 0 (by decide) (by decide)
    (by decide) (by decide)
  exact ⟨lr_epsilon_closure.1 _ (by decide) (by decide), h.1, h.2⟩

/-- C4 counterexample: an empty grammar does not fail at load time — it
loads as a grammar with no productions, no augmented production and no
start symbol. -/
theorem lr_empty_grammar_loads :
    Grammar.ofText ("".data) = .ok ⟨[], none, none⟩ := by decide

/-- C4 as amended: a non-continuation line with neither `->` nor `|`
kills the grammar load with the JS TypeError of reading `.trim` on the
missing RHS part (there is no `GrammarSyntaxError` in the code), so no
grammar object and no production with an empty LHS is produced; an
empty grammar, however, loads successfully as an empty grammar. -/
theorem lr_grammar_load_errors :
    Production.normalize ("garbage".data) = .error .typeError ∧
    Grammar.ofLines ["garbage".data] = .error .typeError ∧
    Grammar.ofText ("garbage".data) = .error .typeError ∧
    Grammar.ofText ("".data) = .ok ⟨[], none, none⟩ := by decide

/-- C7: a production `F -> ε`, and one with no RHS text at all,
normalize to an RHS of exactly the one-symbol sequence `[ε]`; the item
over it is not final at dot 0, is final at dot 1, and the RHS length 1
leaves every dot position greater than 1 out of range. -/
theorem lr_epsilon_rhs :
    Production.normalize ("F -> ε".data) =
      .ok ⟨"F -> ε".data, ⟨"F".data⟩, [⟨EPSILON⟩]⟩ ∧
    Production.normalize ("F ->".data) =
      .ok ⟨"F ->".data, ⟨"F".data⟩, [⟨EPSILON⟩]⟩ ∧
    pFe.RHS.length = 1 ∧
    (⟨pFe, 0, epsG, none, none⟩ : LRItem).isFinal = false ∧
    (⟨pFe, 1, epsG, none, none⟩ : LRItem).isFinal = true ∧
    pFe.RHS.length < 2 := by decide
